import Mathlib

/-!
Shallow embedding of `src/pyro/distributions/conjugate.py` (the `BetaBinomial`
and `GammaPoisson` compound distributions).

Tensors are modelled as a shape (list of dimension sizes) together with a
total function from multi-indices to rational values; torch's right-aligned
broadcasting is modelled explicitly.  Machine floats are modelled as exact
rationals and the transcendental primitives `torch.lgamma` and `log` are
abstract function parameters, so the theorems state the structural identities
the code computes.  Fallible operations (a Python exception) are modelled as
`Option`, with `none` standing for the raised error.
-/

namespace PyroConjugate

/-- Broadcast of two dimension sizes (torch semantics: a size-1 dimension
stretches to the other size; equal sizes stay equal). -/
def bcDim (x y : ℕ) : ℕ := if x = 1 then y else if y = 1 then x else max x y

/-- Broadcast of two shapes given in reversed (rightmost-first) order;
the shorter shape is implicitly padded with leading size-1 dimensions. -/
def bcastRev : List ℕ → List ℕ → List ℕ
  | [], b => b
  | a, [] => a
  | x :: xs, y :: ys => bcDim x y :: bcastRev xs ys

/-- Torch broadcast of two shapes (right-aligned). -/
def broadcastShapes (a b : List ℕ) : List ℕ := (bcastRev a.reverse b.reverse).reverse

/-- Validity of a torch `expand` target, on reversed shapes: every dimension of
the original must equal the target dimension or be 1, and the original may not
have more dimensions than the target. -/
def validExpandRev : List ℕ → List ℕ → Bool
  | [], _ => true
  | _ :: _, [] => false
  | x :: xs, y :: ys => (x == y || x == 1) && validExpandRev xs ys

/-- Validity of a torch `expand` target shape (right-aligned check). -/
def validExpand (orig new : List ℕ) : Bool := validExpandRev orig.reverse new.reverse

/-- Map a (reversed) multi-index of a broadcast result back to a (reversed)
multi-index of the original tensor: coordinates of broadcast size-1 dimensions
collapse to 0 and extra leading dimensions of the target are dropped. -/
def padIdxRev : List ℕ → List ℕ → List ℕ
  | [], _ => []
  | _ :: ds, [] => 0 :: padIdxRev ds []
  | d :: ds, i :: is => (if d = 1 then 0 else i) :: padIdxRev ds is

/-- A tensor: a shape and a total assignment of rational values to
multi-indices (only indices valid for the shape are meaningful). -/
structure Tensor where
  shape : List ℕ
  data : List ℕ → ℚ

/-- Torch `expand` / broadcast of a tensor to a target shape: reading at an
index of the target looks up the right-aligned source index, with size-1
source dimensions pinned to coordinate 0. -/
def Tensor.broadcastTo (t : Tensor) (s : List ℕ) : Tensor :=
  ⟨s, fun j => t.data (padIdxRev t.shape.reverse j.reverse).reverse⟩

/-- All valid multi-indices of a shape, in lexicographic (row-major) order. -/
def allIndices : List ℕ → List (List ℕ)
  | [] => [[]]
  | d :: ds => (List.range d).flatMap (fun i => (allIndices ds).map (fun js => i :: js))

/-- The entries of a tensor, enumerated in row-major order. -/
def Tensor.entries (t : Tensor) : List ℚ := (allIndices t.shape).map t.data

/-- Element-wise binary operation with torch broadcasting. -/
def tBinop (f : ℚ → ℚ → ℚ) (a b : Tensor) : Tensor :=
  ⟨broadcastShapes a.shape b.shape,
   fun j => f ((a.broadcastTo (broadcastShapes a.shape b.shape)).data j)
              ((b.broadcastTo (broadcastShapes a.shape b.shape)).data j)⟩

/-- Multiplication of a tensor by a Python integer scalar (`n * t`). -/
def tScale (n : ℕ) (t : Tensor) : Tensor :=
  ⟨t.shape, fun j => (n : ℚ) * t.data j⟩

/-- Addition of a Python integer scalar to a tensor (`t + n`). -/
def tAddConst (t : Tensor) (n : ℕ) : Tensor :=
  ⟨t.shape, fun j => t.data j + (n : ℚ)⟩

/-- Addition of a rational scalar on the left (`c + t`). -/
def tConstAdd (c : ℚ) (t : Tensor) : Tensor :=
  ⟨t.shape, fun j => c + t.data j⟩

/-- Element-wise natural power (`t.pow n`). -/
def tPow (t : Tensor) (n : ℕ) : Tensor :=
  ⟨t.shape, fun j => (t.data j) ^ n⟩

/-- Python `functools.reduce(operator.mul, l)`: the product of a list, raising
`TypeError` (modelled as `none`) on an empty list because no initial value is
supplied at the call sites in the source. -/
def pyReduceMul : List ℕ → Option ℕ
  | [] => none
  | x :: xs => some (xs.foldl (· * ·) x)

/-- Python `int(...)` applied to a number: truncation toward zero. -/
def pyInt (x : ℚ) : ℤ := if x < 0 then Int.ceil x else Int.floor x

/-- The `_log_beta` helper of the source:
`lgamma x + lgamma y - lgamma (x + y)`, with `lgamma` abstract. -/
def logBeta (lg : ℚ → ℚ) (x y : ℚ) : ℚ := lg x + lg y - lg (x + y)

/-- Modelled from the spec: `sum_leftmost` (imported by the source from
`pyro.distributions.util`, which is not among the given sources) collapses the
leading dimensions of the observation tensor, keeping the last `keep`
dimensions: "`Σobs` is the sum over those same leading dimensions". -/
def sumLeftmost (t : Tensor) (keep : ℕ) : Tensor :=
  ⟨t.shape.drop (t.shape.length - keep),
   fun j => ((allIndices (t.shape.take (t.shape.length - keep))).map
      (fun i => t.data (i ++ j))).sum⟩

/-- The parameters of the owned `Beta` prior. -/
structure BetaParams where
  concentration1 : Tensor
  concentration0 : Tensor

/-- The `_unexpanded_params` dictionary of `BetaBinomial`. -/
structure BBUnexpanded where
  concentration1 : Tensor
  concentration0 : Tensor
  total_count : Tensor

/-- State of a `BetaBinomial` instance: the owned `Beta` prior (`_beta`), the
`_unexpanded_params` record, the broadcast `total_count`, the batch shape and
the `_validate_args` flag. -/
structure BetaBinomial where
  beta : BetaParams
  unexp : BBUnexpanded
  totalCount : Tensor
  batchShape : List ℕ
  validateArgs : Bool

/-- `BetaBinomial.__init__`: `broadcast_all` the three parameters, build the
`Beta` prior, record the post-broadcast parameters as `_unexpanded_params`,
and take the prior's batch shape. -/
def bbMk (c1 c0 tc : Tensor) (va : Bool) : BetaBinomial :=
  { beta := ⟨c1.broadcastTo (broadcastShapes c1.shape (broadcastShapes c0.shape tc.shape)),
             c0.broadcastTo (broadcastShapes c1.shape (broadcastShapes c0.shape tc.shape))⟩,
    unexp := ⟨c1.broadcastTo (broadcastShapes c1.shape (broadcastShapes c0.shape tc.shape)),
              c0.broadcastTo (broadcastShapes c1.shape (broadcastShapes c0.shape tc.shape)),
              tc.broadcastTo (broadcastShapes c1.shape (broadcastShapes c0.shape tc.shape))⟩,
    totalCount := tc.broadcastTo (broadcastShapes c1.shape (broadcastShapes c0.shape tc.shape)),
    batchShape := broadcastShapes c1.shape (broadcastShapes c0.shape tc.shape),
    validateArgs := va }

/-- `BetaBinomial.expand`: expand the `Beta` prior to the new batch shape,
carry `_unexpanded_params` over unchanged, broadcast `total_count` to the new
prior's shape, re-initialise with `validate_args=False` and then copy the
original `_validate_args` flag onto the new instance. -/
def bbExpand (d : BetaBinomial) (s : List ℕ) : BetaBinomial :=
  let new0 : BetaBinomial :=
    { beta := ⟨d.beta.concentration1.broadcastTo s, d.beta.concentration0.broadcastTo s⟩,
      unexp := d.unexp,
      totalCount := d.totalCount.broadcastTo s,
      batchShape := s,
      validateArgs := false }
  { new0 with validateArgs := d.validateArgs }

/-- The scalar kernel of `BetaBinomial.log_prob`:
`lgamma(n+1) - lgamma(k+1) - lgamma(n-k+1)
 + _log_beta(k + concentration1, n - k + concentration0)
 - _log_beta(concentration0, concentration1)`. -/
def bbLogProbVal (lg : ℚ → ℚ) (n a b k : ℚ) : ℚ :=
  lg (n + 1) - lg (k + 1) - lg (n - k + 1)
    + logBeta lg (k + a) (n - k + b) - logBeta lg b a

/-- The broadcast result shape of the `BetaBinomial.log_prob` expression
(all four operand tensors broadcast together). -/
def bbOpShape (d : BetaBinomial) (value : Tensor) : List ℕ :=
  broadcastShapes d.totalCount.shape (broadcastShapes value.shape
    (broadcastShapes d.beta.concentration1.shape d.beta.concentration0.shape))

/-- `BetaBinomial.log_prob`: the closed-form marginal, computed element-wise
over the broadcast of `total_count`, `value`, `concentration1` and
`concentration0`.  The optional `_validate_sample` guard (an external
base-class hook that raises before any computation when validation is
enabled) is not modelled; the formula below is what the source computes. -/
def bbLogProb (lg : ℚ → ℚ) (d : BetaBinomial) (value : Tensor) : Tensor :=
  ⟨bbOpShape d value,
   fun j => bbLogProbVal lg
     ((d.totalCount.broadcastTo (bbOpShape d value)).data j)
     ((d.beta.concentration1.broadcastTo (bbOpShape d value)).data j)
     ((d.beta.concentration0.broadcastTo (bbOpShape d value)).data j)
     ((value.broadcastTo (bbOpShape d value)).data j)⟩

/-- The pair of posterior `Beta` parameters built by
`BetaBinomial._posterior_latent_dist` once `num_obs` is known:
`(concentration1 + summed_obs, num_obs * total_count + concentration0 - summed_obs)`,
reading the `_unexpanded_params`. -/
def bbPosteriorParams (d : BetaBinomial) (obs : Tensor) (numObs : ℕ) : Tensor × Tensor :=
  (tBinop (· + ·) d.unexp.concentration1
     (sumLeftmost obs d.unexp.concentration1.shape.length),
   tBinop (· - ·)
     (tBinop (· + ·) (tScale numObs d.unexp.total_count) d.unexp.concentration0)
     (sumLeftmost obs d.unexp.concentration1.shape.length))

/-- `BetaBinomial._posterior_latent_dist`: `num_obs` is
`reduce(mul, obs.size()[:len(obs.size()) - num_dims])`, which raises (`none`)
when that slice is empty. -/
def bbPosterior (d : BetaBinomial) (obs : Tensor) : Option (Tensor × Tensor) :=
  (pyReduceMul (obs.shape.take
      (obs.shape.length - d.unexp.concentration1.shape.length))).map
    (bbPosteriorParams d obs)

/-- The posterior asserted by the spec for `BetaBinomial`:
`Beta(α + Σobs, n_obs · total_count + β − Σobs)` with `n_obs` the (total)
product of the leading, non-batch dimension sizes of `obs`. -/
def bbPosteriorSpec (d : BetaBinomial) (obs : Tensor) : Tensor × Tensor :=
  bbPosteriorParams d obs
    ((obs.shape.take (obs.shape.length - d.unexp.concentration1.shape.length)).prod)

/-- `BetaBinomial.enumerate_support`: compute `int(total_count.max())`, raise
(`none`) when `total_count.min()` differs from it (or when the tensor is empty,
where torch `max` itself raises); otherwise return `arange(1 + total_count)`
viewed with one trailing singleton dimension per batch dimension, broadcast
across the batch shape when `expand` is true. -/
def bbEnumerateSupport (d : BetaBinomial) (expandFlag : Bool) : Option Tensor :=
  match d.totalCount.entries with
  | [] => none
  | e :: es =>
    if es.foldl min e = ((pyInt (es.foldl max e) : ℤ) : ℚ) then
      some ⟨(1 + pyInt (es.foldl max e)).toNat ::
              (if expandFlag then d.batchShape
               else List.replicate d.batchShape.length 1),
            fun j => (j.headI : ℚ)⟩
    else none

/-- The parameters of the owned `Gamma` prior. -/
structure GammaParams where
  concentration : Tensor
  rate : Tensor

/-- The `_unexpanded_params` dictionary of `GammaPoisson`. -/
structure GPUnexpanded where
  concentration : Tensor
  rate : Tensor

/-- State of a `GammaPoisson` instance: the owned `Gamma` prior (`_gamma`),
the `_unexpanded_params` record, the batch shape and the `_validate_args`
flag. -/
structure GammaPoisson where
  gamma : GammaParams
  unexp : GPUnexpanded
  batchShape : List ℕ
  validateArgs : Bool

/-- `GammaPoisson.__init__`: `broadcast_all` both parameters, build the
`Gamma` prior, record the post-broadcast parameters as `_unexpanded_params`,
and take the prior's batch shape. -/
def gpMk (c r : Tensor) (va : Bool) : GammaPoisson :=
  { gamma := ⟨c.broadcastTo (broadcastShapes c.shape r.shape),
              r.broadcastTo (broadcastShapes c.shape r.shape)⟩,
    unexp := ⟨c.broadcastTo (broadcastShapes c.shape r.shape),
              r.broadcastTo (broadcastShapes c.shape r.shape)⟩,
    batchShape := broadcastShapes c.shape r.shape,
    validateArgs := va }

/-- `GammaPoisson.expand`: expand the `Gamma` prior to the new batch shape,
carry `_unexpanded_params` over unchanged, re-initialise with
`validate_args=False` and then copy the original `_validate_args` flag onto
the new instance. -/
def gpExpand (g : GammaPoisson) (s : List ℕ) : GammaPoisson :=
  let new0 : GammaPoisson :=
    { gamma := ⟨g.gamma.concentration.broadcastTo s, g.gamma.rate.broadcastTo s⟩,
      unexp := g.unexp,
      batchShape := s,
      validateArgs := false }
  { new0 with validateArgs := g.validateArgs }

/-- The scalar kernel of `GammaPoisson.log_prob`:
`-_log_beta(concentration, value + 1) - log(concentration + value)
 + concentration * log(rate) - (concentration + value) * log(1 + rate)`. -/
def gpLogProbVal (lg log : ℚ → ℚ) (c v r : ℚ) : ℚ :=
  -(logBeta lg c (v + 1)) - log (c + v) + c * log r - (c + v) * log (1 + r)

/-- The broadcast result shape of the `GammaPoisson.log_prob` expression. -/
def gpOpShape (g : GammaPoisson) (value : Tensor) : List ℕ :=
  broadcastShapes g.gamma.concentration.shape
    (broadcastShapes value.shape g.gamma.rate.shape)

/-- `GammaPoisson.log_prob`: the closed-form marginal, computed element-wise
over the broadcast of `concentration`, `value` and `rate`.  As for
`BetaBinomial`, the optional `_validate_sample` guard is not modelled. -/
def gpLogProb (lg log : ℚ → ℚ) (g : GammaPoisson) (value : Tensor) : Tensor :=
  ⟨gpOpShape g value,
   fun j => gpLogProbVal lg log
     ((g.gamma.concentration.broadcastTo (gpOpShape g value)).data j)
     ((value.broadcastTo (gpOpShape g value)).data j)
     ((g.gamma.rate.broadcastTo (gpOpShape g value)).data j)⟩

/-- The pair of posterior `Gamma` parameters built by
`GammaPoisson._posterior_latent_dist` once `num_obs` is known:
`(concentration + summed_obs, rate + num_obs)`, reading the
`_unexpanded_params`. -/
def gpPosteriorParams (g : GammaPoisson) (obs : Tensor) (numObs : ℕ) : Tensor × Tensor :=
  (tBinop (· + ·) g.unexp.concentration
     (sumLeftmost obs g.unexp.concentration.shape.length),
   tAddConst g.unexp.rate numObs)

/-- `GammaPoisson._posterior_latent_dist`: `num_obs` is
`reduce(mul, obs.size()[:num_dims])` — the product of the FIRST `num_dims`
dimension sizes of `obs`, where `num_dims` is the number of batch dimensions —
raising (`none`) when that slice is empty. -/
def gpPosterior (g : GammaPoisson) (obs : Tensor) : Option (Tensor × Tensor) :=
  (pyReduceMul (obs.shape.take g.unexp.concentration.shape.length)).map
    (gpPosteriorParams g obs)

/-- The posterior asserted by the spec for `GammaPoisson`:
`Gamma(concentration + Σobs, rate + n_obs)` with `n_obs` the product of the
leading, non-batch dimension sizes of `obs`. -/
def gpPosteriorSpec (g : GammaPoisson) (obs : Tensor) : Tensor × Tensor :=
  gpPosteriorParams g obs
    ((obs.shape.take (obs.shape.length - g.unexp.concentration.shape.length)).prod)

/-- `GammaPoisson.mean`: `concentration / rate`. -/
def gpMean (g : GammaPoisson) : Tensor :=
  tBinop (· / ·) g.gamma.concentration g.gamma.rate

/-- `GammaPoisson.variance`: `concentration / rate.pow(2) * (1 + rate)`. -/
def gpVariance (g : GammaPoisson) : Tensor :=
  tBinop (· * ·)
    (tBinop (· / ·) g.gamma.concentration (tPow g.gamma.rate 2))
    (tConstAdd 1 g.gamma.rate)

lemma bcDim_self (x : ℕ) : bcDim x x = x := by
  unfold bcDim
  split_ifs <;> simp_all [Nat.max_self]

lemma bcastRev_self (l : List ℕ) : bcastRev l l = l := by
  induction l with
  | nil => rfl
  | cons x xs ih => simp [bcastRev, bcDim_self, ih]

lemma broadcastShapes_self (s : List ℕ) : broadcastShapes s s = s := by
  simp [broadcastShapes, bcastRev_self]

lemma bcastRev_of_validExpandRev (a : List ℕ) :
    ∀ s, validExpandRev a s = true → bcastRev a s = s := by
  induction a with
  | nil => intro s _; cases s <;> rfl
  | cons x xs ih =>
    intro s h
    cases s with
    | nil => simp [validExpandRev] at h
    | cons y ys =>
      simp only [validExpandRev, Bool.and_eq_true, Bool.or_eq_true, beq_iff_eq] at h
      obtain ⟨h1, h2⟩ := h
      rcases h1 with h1 | h1
      · subst h1; simp [bcastRev, bcDim_self, ih _ h2]
      · subst h1; simp [bcastRev, bcDim, ih _ h2]

lemma broadcastShapes_of_validExpand (b s : List ℕ) (h : validExpand b s = true) :
    broadcastShapes b s = s := by
  unfold validExpand at h
  unfold broadcastShapes
  rw [bcastRev_of_validExpandRev _ _ h, List.reverse_reverse]

lemma broadcastTo_shape (t : Tensor) (s : List ℕ) : (t.broadcastTo s).shape = s := rfl

lemma foldl_mul_eq_prod (xs : List ℕ) : ∀ x, xs.foldl (· * ·) x = x * xs.prod := by
  induction xs with
  | nil => intro x; simp
  | cons y ys ih =>
    intro x
    rw [List.foldl_cons, ih (x * y), List.prod_cons, mul_assoc]

lemma pyReduceMul_of_ne_nil (l : List ℕ) (h : l ≠ []) : pyReduceMul l = some l.prod := by
  cases l with
  | nil => exact absurd rfl h
  | cons x xs =>
    show some (xs.foldl (· * ·) x) = some ((x :: xs).prod)
    rw [foldl_mul_eq_prod, List.prod_cons]

lemma foldl_max_mem (e : ℚ) (es : List ℚ) : es.foldl max e ∈ e :: es := by
  induction es generalizing e with
  | nil => simp
  | cons x xs ih =>
    rw [List.foldl_cons]
    rcases List.mem_cons.mp (ih (max e x)) with h | h
    · rcases max_choice e x with h2 | h2 <;> rw [h, h2] <;> simp
    · exact List.mem_cons_of_mem _ (List.mem_cons_of_mem _ h)

lemma foldl_min_mem (e : ℚ) (es : List ℚ) : es.foldl min e ∈ e :: es := by
  induction es generalizing e with
  | nil => simp
  | cons x xs ih =>
    rw [List.foldl_cons]
    rcases List.mem_cons.mp (ih (min e x)) with h | h
    · rcases min_choice e x with h2 | h2 <;> rw [h, h2] <;> simp
    · exact List.mem_cons_of_mem _ (List.mem_cons_of_mem _ h)

lemma le_foldl_max (e : ℚ) (es : List ℚ) : ∀ x ∈ e :: es, x ≤ es.foldl max e := by
  induction es generalizing e with
  | nil =>
    intro x hx
    simp only [List.mem_singleton] at hx
    simp [hx]
  | cons y ys ih =>
    intro x hx
    rw [List.foldl_cons]
    rcases List.mem_cons.mp hx with h | h
    · subst h
      exact le_trans (le_max_left x y) (ih (max x y) _ (List.mem_cons_self _ _))
    · rcases List.mem_cons.mp h with h2 | h2
      · subst h2
        exact le_trans (le_max_right e x) (ih (max e x) _ (List.mem_cons_self _ _))
      · exact ih (max e y) x (List.mem_cons_of_mem _ h2)

lemma foldl_min_le (e : ℚ) (es : List ℚ) : ∀ x ∈ e :: es, es.foldl min e ≤ x := by
  induction es generalizing e with
  | nil =>
    intro x hx
    simp only [List.mem_singleton] at hx
    simp [hx]
  | cons y ys ih =>
    intro x hx
    rw [List.foldl_cons]
    rcases List.mem_cons.mp hx with h | h
    · subst h
      exact le_trans (ih (min x y) _ (List.mem_cons_self _ _)) (min_le_left x y)
    · rcases List.mem_cons.mp h with h2 | h2
      · subst h2
        exact le_trans (ih (min e x) _ (List.mem_cons_self _ _)) (min_le_right e x)
      · exact ih (min e y) x (List.mem_cons_of_mem _ h2)

lemma pyInt_natCast (n : ℕ) : pyInt ((n : ℚ)) = (n : ℤ) := by
  unfold pyInt
  rw [if_neg (not_lt.mpr (Nat.cast_nonneg n)), Int.floor_natCast]

lemma bbEnumerateSupport_homog (d : BetaBinomial) (n : ℕ)
    (hne : d.totalCount.entries ≠ [])
    (hall : ∀ x ∈ d.totalCount.entries, x = (n : ℚ)) (flag : Bool) :
    bbEnumerateSupport d flag =
      some ⟨(n + 1) :: (if flag then d.batchShape
                        else List.replicate d.batchShape.length 1),
            fun j => (j.headI : ℚ)⟩ := by
  rcases hE : d.totalCount.entries with _ | ⟨e, es⟩
  · exact absurd hE hne
  · have hmax : es.foldl max e = (n : ℚ) := by
      have hmem := foldl_max_mem e es
      rw [← hE] at hmem
      exact hall _ hmem
    have hmin : es.foldl min e = (n : ℚ) := by
      have hmem := foldl_min_mem e es
      rw [← hE] at hmem
      exact hall _ hmem
    simp only [bbEnumerateSupport, hE]
    rw [hmax, hmin, pyInt_natCast]
    rw [if_pos (by push_cast; ring)]
    have ht : (1 + (n : ℤ)).toNat = n + 1 := by omega
    rw [ht]

lemma bbExpand_unexp (d : BetaBinomial) (s : List ℕ) : (bbExpand d s).unexp = d.unexp := rfl

lemma gpExpand_unexp (g : GammaPoisson) (s : List ℕ) : (gpExpand g s).unexp = g.unexp := rfl

lemma foldl_bbExpand_unexp (ss : List (List ℕ)) :
    ∀ d : BetaBinomial, (ss.foldl bbExpand d).unexp = d.unexp := by
  induction ss with
  | nil => intro d; rfl
  | cons s ss ih => intro d; rw [List.foldl_cons, ih (bbExpand d s), bbExpand_unexp]

lemma foldl_gpExpand_unexp (ss : List (List ℕ)) :
    ∀ g : GammaPoisson, (ss.foldl gpExpand g).unexp = g.unexp := by
  induction ss with
  | nil => intro g; rfl
  | cons s ss ih => intro g; rw [List.foldl_cons, ih (gpExpand g s), gpExpand_unexp]

/-- A scalar (0-dimensional) tensor. -/
def scalarT (x : ℚ) : Tensor := ⟨[], fun _ => x⟩

/-- The concrete instance `GammaPoisson(concentration=[1,1], rate=[1,1])`
(batch shape `(2,)`) at which the posterior observation count goes wrong. -/
def gpBugInstance : GammaPoisson := gpMk ⟨[2], fun _ => 1⟩ ⟨[2], fun _ => 1⟩ true

/-- An all-ones observation tensor of shape `(5, 3, 2)`: two leading
observation dimensions over the `(2,)` batch, so `n_obs` should be `15`. -/
def gpBugObs : Tensor := ⟨[5, 3, 2], fun _ => 1⟩

/-- The concrete instance `BetaBinomial(2.0, 3.0, total_count=4)` (scalar batch
shape) used by the posterior scenario of the spec. -/
def bbScalarInstance : BetaBinomial :=
  bbMk (scalarT 2) (scalarT 3) (scalarT 4) true

/-- Claim C1: for every value `k` and parameters `n = total_count`,
`α = concentration1`, `β = concentration0`, `BetaBinomial.log_prob(k)` equals
`lgamma(n+1) − lgamma(k+1) − lgamma(n−k+1) + log_beta(k+α, n−k+β) − log_beta(β, α)`
where `log_beta(x, y) = lgamma x + lgamma y − lgamma (x+y)`; in particular
`BetaBinomial(concentration1=2, concentration0=3, total_count=10).log_prob 3`
equals `lgamma 11 − lgamma 4 − lgamma 8 + log_beta 5 10 − log_beta 3 2`. -/
theorem betaBinomial_log_prob_closed_form (lg : ℚ → ℚ) (n a b k : ℚ) :
    (bbLogProb lg (bbMk (scalarT a) (scalarT b) (scalarT n) true) (scalarT k)).data []
      = lg (n + 1) - lg (k + 1) - lg (n - k + 1)
        + (lg (k + a) + lg (n - k + b) - lg ((k + a) + (n - k + b)))
        - (lg b + lg a - lg (b + a))
    ∧ (bbLogProb lg (bbMk (scalarT 2) (scalarT 3) (scalarT 10) true) (scalarT 3)).data []
      = lg 11 - lg 4 - lg 8 + logBeta lg 5 10 - logBeta lg 3 2 := by
  constructor
  · show bbLogProbVal lg n a b k = _
    unfold bbLogProbVal logBeta
    rfl
  · show bbLogProbVal lg 10 2 3 3 = _
    unfold bbLogProbVal logBeta
    norm_num

/-- Claim C5: for every value and parameters, `GammaPoisson.log_prob(value)`
equals `−log_beta(concentration, value+1) − log(concentration+value)
+ concentration·log(rate) − (concentration+value)·log(1+rate)` with
`log_beta(x, y) = lgamma x + lgamma y − lgamma (x+y)`. -/
theorem gammaPoisson_log_prob_closed_form (lg log : ℚ → ℚ) (c r v : ℚ) :
    (gpLogProb lg log (gpMk (scalarT c) (scalarT r) true) (scalarT v)).data []
      = -(lg c + lg (v + 1) - lg (c + (v + 1))) - log (c + v)
        + c * log r - (c + v) * log (1 + r) := by
  show gpLogProbVal lg log c v r = _
  unfold gpLogProbVal logBeta
  rfl

/-- Claim C8: `GammaPoisson.mean = concentration / rate` and
`GammaPoisson.variance = concentration / rate² · (1 + rate)`; in particular
`GammaPoisson(concentration=5, rate=2)` has mean `5/2` and variance `15/4`. -/
theorem gammaPoisson_moments (c r : ℚ) :
    (gpMean (gpMk (scalarT c) (scalarT r) true)).data [] = c / r
    ∧ (gpVariance (gpMk (scalarT c) (scalarT r) true)).data [] = c / r ^ 2 * (1 + r)
    ∧ (gpMean (gpMk (scalarT 5) (scalarT 2) true)).data [] = 5 / 2
    ∧ (gpVariance (gpMk (scalarT 5) (scalarT 2) true)).data [] = 15 / 4 :=
  ⟨rfl, rfl, rfl, by
    show (5 : ℚ) / 2 ^ 2 * (1 + 2) = 15 / 4
    norm_num⟩

/-- Claim C9: `unexpanded_params` always holds the post-broadcast, pre-expand
parameters recorded at construction: any chain of `expand` calls leaves it
untouched (the expanded instance holds the same record as its origin — the
source's sharing by reference appears as equality in this pure model), and at
construction it coincides with the broadcast parameters the priors were built
from. -/
theorem unexpanded_params_invariant :
    (∀ (d : BetaBinomial) (ss : List (List ℕ)), (ss.foldl bbExpand d).unexp = d.unexp)
    ∧ (∀ (g : GammaPoisson) (ss : List (List ℕ)), (ss.foldl gpExpand g).unexp = g.unexp)
    ∧ (∀ (d : BetaBinomial) (s : List ℕ), (bbExpand d s).unexp = d.unexp)
    ∧ (∀ (g : GammaPoisson) (s : List ℕ), (gpExpand g s).unexp = g.unexp)
    ∧ (∀ c1 c0 tc va, (bbMk c1 c0 tc va).unexp
        = ⟨(bbMk c1 c0 tc va).beta.concentration1,
           (bbMk c1 c0 tc va).beta.concentration0,
           (bbMk c1 c0 tc va).totalCount⟩)
    ∧ (∀ c r va, (gpMk c r va).unexp
        = ⟨(gpMk c r va).gamma.concentration, (gpMk c r va).gamma.rate⟩) :=
  ⟨fun d ss => foldl_bbExpand_unexp ss d,
   fun g ss => foldl_gpExpand_unexp ss g,
   fun _ _ => rfl, fun _ _ => rfl,
   fun _ _ _ _ => rfl, fun _ _ _ => rfl⟩

/-- Claim C10: `expand` produces an instance whose `validate_args` flag equals
the original's — the base initialiser is invoked with validation disabled, but
the original flag is then copied onto the new instance. -/
theorem expand_preserves_validate_args :
    (∀ (d : BetaBinomial) (s : List ℕ), (bbExpand d s).validateArgs = d.validateArgs)
    ∧ (∀ (g : GammaPoisson) (s : List ℕ), (gpExpand g s).validateArgs = g.validateArgs) :=
  ⟨fun _ _ => rfl, fun _ _ => rfl⟩

/-- Claim C2 (code bug): with a `(2,)` batch and an observation of shape
`(5, 3, 2)` (fifteen observations per batch element, all ones),
`GammaPoisson._posterior_latent_dist` computes the posterior rate
`rate + 5` — the product of the FIRST `num_dims` dimensions of `obs` —
whereas the conjugate update of the spec yields `rate + 15`, the product of
the leading (non-batch) dimensions. -/
theorem gammaPoisson_posterior_num_obs_bug :
    (gpPosterior gpBugInstance gpBugObs).map (fun p => p.2.data [0]) = some 6
    ∧ (gpPosteriorSpec gpBugInstance gpBugObs).2.data [0] = 16
    ∧ (6 : ℚ) ≠ 16 :=
  ⟨by
    show some ((1 : ℚ) + ((5 : ℕ) : ℚ)) = some 6
    norm_num,
   by
    show (1 : ℚ) + ((15 : ℕ) : ℚ) = 16
    norm_num,
   by norm_num⟩

/-- Claim C3 (counterexample): `BetaBinomial(2.0, 3.0, total_count=4)` has a
scalar batch shape, so for the scalar observation `obs = 3` the slice
`obs.size()[:len(obs.size()) - num_dims]` is empty and
`reduce(mul, ...)` raises a `TypeError` (modelled as `none`) — no
`Beta(5.0, 4.0)` is returned. -/
theorem betaBinomial_posterior_scalar_obs_raises :
    bbPosterior bbScalarInstance (scalarT 3) = none := rfl

/-- Claim C3 (amended): whenever the observation has at least one leading
(non-batch) dimension, `BetaBinomial._posterior_latent_dist` returns exactly
the conjugate posterior `Beta(α + Σobs, n_obs·total_count + β − Σobs)` of the
spec; in particular `BetaBinomial(2.0, 3.0, total_count=4)` with the
one-element observation array `[3]` yields `Beta(5.0, 4.0)`. -/
theorem betaBinomial_posterior_conjugate_update (d : BetaBinomial) (obs : Tensor)
    (h : d.unexp.concentration1.shape.length < obs.shape.length) :
    bbPosterior d obs = some (bbPosteriorSpec d obs)
    ∧ (bbPosterior bbScalarInstance ⟨[1], fun _ => 3⟩).map
        (fun p => (p.1.data [], p.2.data [])) = some (5, 4) := by
  constructor
  · have hne2 : obs.shape.take
        (obs.shape.length - d.unexp.concentration1.shape.length) ≠ [] := by
      intro hnil
      have hlen := congrArg List.length hnil
      rw [List.length_take] at hlen
      simp only [List.length_nil] at hlen
      omega
    unfold bbPosterior bbPosteriorSpec
    rw [pyReduceMul_of_ne_nil _ hne2]
    rfl
  · show some (((2 : ℚ) + ((3 : ℚ) + 0), (((1 : ℕ) : ℚ) * 4 + 3) - ((3 : ℚ) + 0)))
        = some ((5 : ℚ), (4 : ℚ))
    norm_num

/-- Witness for the amended claim C3 at
`BetaBinomial(2.0, 3.0, total_count=4)` and observation `[3]`. -/
theorem betaBinomial_posterior_conjugate_update_witness :
    bbScalarInstance.unexp.concentration1.shape.length
        < (⟨[1], fun _ => 3⟩ : Tensor).shape.length
    ∧ (bbPosterior bbScalarInstance ⟨[1], fun _ => 3⟩
        = some (bbPosteriorSpec bbScalarInstance ⟨[1], fun _ => 3⟩)
      ∧ (bbPosterior bbScalarInstance ⟨[1], fun _ => 3⟩).map
          (fun p => (p.1.data [], p.2.data [])) = some (5, 4)) :=
  ⟨by decide,
   betaBinomial_posterior_conjugate_update bbScalarInstance ⟨[1], fun _ => 3⟩ (by decide)⟩

/-- A concrete `BetaBinomial` batch of two with homogeneous `total_count = 3`. -/
def bbHomogInstance : BetaBinomial :=
  bbMk ⟨[2], fun _ => 2⟩ ⟨[2], fun _ => 2⟩ ⟨[2], fun _ => 3⟩ true

/-- A concrete `BetaBinomial` batch of two with inhomogeneous `total_count`
`[2, 5]`. -/
def bbInhomogInstance : BetaBinomial :=
  bbMk ⟨[2], fun _ => 2⟩ ⟨[2], fun _ => 2⟩
    ⟨[2], fun j => if j.headI = 0 then 2 else 5⟩ true

/-- Claim C6: when every entry of `total_count` equals the same integer `n`,
`BetaBinomial.enumerate_support` returns the integers `0..n` in ascending
order with no duplicates along the new leading dimension (the value at
leading index `i` is `i`, and the leading dimension has size `n+1`); when the
(integer-valued, per the declared `nonnegative_integer` constraint)
`total_count` entries are not all equal, the call raises
`NotImplementedError` (modelled as `none`). -/
theorem betaBinomial_enumerate_support_correct :
    (∀ (d : BetaBinomial) (n : ℕ) (flag : Bool),
      d.totalCount.entries ≠ [] →
      (∀ x ∈ d.totalCount.entries, x = (n : ℚ)) →
      ∃ t, bbEnumerateSupport d flag = some t
        ∧ t.shape.headI = n + 1
        ∧ ∀ (i : ℕ) (r : List ℕ), t.data (i :: r) = (i : ℚ))
    ∧ (∀ (d : BetaBinomial) (flag : Bool),
      (∀ x ∈ d.totalCount.entries, ∃ k : ℕ, x = (k : ℚ)) →
      (∃ x ∈ d.totalCount.entries, ∃ y ∈ d.totalCount.entries, x ≠ y) →
      bbEnumerateSupport d flag = none) := by
  constructor
  · intro d n flag hne hall
    exact ⟨_, bbEnumerateSupport_homog d n hne hall flag, rfl, fun i r => rfl⟩
  · intro d flag hval hneq
    obtain ⟨x, hx, y, hy, hxy⟩ := hneq
    rcases hE : d.totalCount.entries with _ | ⟨e, es⟩
    · rw [hE] at hx
      exact absurd hx (List.not_mem_nil x)
    · simp only [bbEnumerateSupport, hE]
      have hc : ¬ (es.foldl min e = ((pyInt (es.foldl max e) : ℤ) : ℚ)) := by
        intro hcheck
        have hmaxmem : es.foldl max e ∈ d.totalCount.entries := by
          rw [hE]; exact foldl_max_mem e es
        obtain ⟨kM, hkM⟩ := hval _ hmaxmem
        rw [hkM, pyInt_natCast] at hcheck
        push_cast at hcheck
        have hxle : x ≤ es.foldl max e := by
          rw [hE] at hx; exact le_foldl_max e es x hx
        have hyle : y ≤ es.foldl max e := by
          rw [hE] at hy; exact le_foldl_max e es y hy
        have hxge : es.foldl min e ≤ x := by
          rw [hE] at hx; exact foldl_min_le e es x hx
        have hyge : es.foldl min e ≤ y := by
          rw [hE] at hy; exact foldl_min_le e es y hy
        rw [hkM] at hxle hyle
        rw [hcheck] at hxge hyge
        exact hxy ((le_antisymm hxle hxge).trans (le_antisymm hyle hyge).symm)
      rw [if_neg hc]

/-- Witness for claim C6: the homogeneous batch `total_count = [3, 3]`
enumerates `0..3`; the inhomogeneous batch `total_count = [2, 5]` raises. -/
theorem betaBinomial_enumerate_support_correct_witness :
    (∃ t, bbEnumerateSupport bbHomogInstance true = some t
        ∧ t.shape.headI = 3 + 1
        ∧ ∀ (i : ℕ) (r : List ℕ), t.data (i :: r) = (i : ℚ))
    ∧ bbEnumerateSupport bbInhomogInstance true = none := by
  have hE1 : bbHomogInstance.totalCount.entries = [(3 : ℚ), (3 : ℚ)] := rfl
  have hE2 : bbInhomogInstance.totalCount.entries = [(2 : ℚ), (5 : ℚ)] := rfl
  constructor
  · refine betaBinomial_enumerate_support_correct.1 bbHomogInstance 3 true ?_ ?_
    · rw [hE1]; simp
    · intro x hx
      rw [hE1] at hx
      simp only [List.mem_cons, List.not_mem_nil, or_false] at hx
      rcases hx with h | h <;> rw [h] <;> norm_num
  · refine betaBinomial_enumerate_support_correct.2 bbInhomogInstance true ?_ ?_
    · intro x hx
      rw [hE2] at hx
      simp only [List.mem_cons, List.not_mem_nil, or_false] at hx
      rcases hx with h | h
      · exact ⟨2, by rw [h]; norm_num⟩
      · exact ⟨5, by rw [h]; norm_num⟩
    · refine ⟨2, ?_, 5, ?_, by norm_num⟩
      · rw [hE2]; simp
      · rw [hE2]; simp

/-- Claim C7 (counterexample): for the batch `total_count = [3, 3]` with batch
shape `(2,)`, `enumerate_support(expand=False)` returns an array of shape
`(4, 1)` — a trailing singleton dimension per batch dimension — not the
claimed shape `(4,)`. -/
theorem betaBinomial_enumerate_support_noexpand_shape_counterexample :
    (bbEnumerateSupport bbHomogInstance false).map Tensor.shape = some [4, 1]
    ∧ [4, 1] ≠ ([4] : List ℕ) := by
  constructor
  · rw [bbEnumerateSupport_homog bbHomogInstance 3 ?_ ?_ false]
    · rfl
    · rw [show bbHomogInstance.totalCount.entries = [(3 : ℚ), (3 : ℚ)] from rfl]
      simp
    · intro x hx
      rw [show bbHomogInstance.totalCount.entries = [(3 : ℚ), (3 : ℚ)] from rfl] at hx
      simp only [List.mem_cons, List.not_mem_nil, or_false] at hx
      rcases hx with h | h <;> rw [h] <;> norm_num
  · simp

/-- Claim C7 (amended): for homogeneous integer `total_count = n`, the array
returned by `enumerate_support` has shape `(n+1,) + batch_shape` when the
expand flag is true, and shape `(n+1,)` followed by one singleton dimension
per batch dimension when the flag is false. -/
theorem betaBinomial_enumerate_support_shape (d : BetaBinomial) (n : ℕ)
    (hne : d.totalCount.entries ≠ [])
    (hall : ∀ x ∈ d.totalCount.entries, x = (n : ℚ)) :
    (bbEnumerateSupport d true).map Tensor.shape = some ((n + 1) :: d.batchShape)
    ∧ (bbEnumerateSupport d false).map Tensor.shape
        = some ((n + 1) :: List.replicate d.batchShape.length 1) := by
  constructor <;> rw [bbEnumerateSupport_homog d n hne hall] <;> rfl

/-- Witness for the amended claim C7 at the homogeneous batch
`total_count = [3, 3]` with batch shape `(2,)`. -/
theorem betaBinomial_enumerate_support_shape_witness :
    (bbEnumerateSupport bbHomogInstance true).map Tensor.shape
        = some ((3 + 1) :: bbHomogInstance.batchShape)
    ∧ (bbEnumerateSupport bbHomogInstance false).map Tensor.shape
        = some ((3 + 1) :: List.replicate bbHomogInstance.batchShape.length 1) := by
  refine betaBinomial_enumerate_support_shape bbHomogInstance 3 ?_ ?_
  · rw [show bbHomogInstance.totalCount.entries = [(3 : ℚ), (3 : ℚ)] from rfl]
    simp
  · intro x hx
    rw [show bbHomogInstance.totalCount.entries = [(3 : ℚ), (3 : ℚ)] from rfl] at hx
    simp only [List.mem_cons, List.not_mem_nil, or_false] at hx
    rcases hx with h | h <;> rw [h] <;> norm_num

lemma bbExpand_totalCount (d : BetaBinomial) (s : List ℕ) :
    (bbExpand d s).totalCount = d.totalCount.broadcastTo s := rfl

lemma bbExpand_c1 (d : BetaBinomial) (s : List ℕ) :
    (bbExpand d s).beta.concentration1 = d.beta.concentration1.broadcastTo s := rfl

lemma bbExpand_c0 (d : BetaBinomial) (s : List ℕ) :
    (bbExpand d s).beta.concentration0 = d.beta.concentration0.broadcastTo s := rfl

lemma gpExpand_conc (g : GammaPoisson) (s : List ℕ) :
    (gpExpand g s).gamma.concentration = g.gamma.concentration.broadcastTo s := rfl

lemma gpExpand_rate (g : GammaPoisson) (s : List ℕ) :
    (gpExpand g s).gamma.rate = g.gamma.rate.broadcastTo s := rfl

lemma tensor_eq_of (a b : Tensor) (hs : a.shape = b.shape)
    (hd : ∀ j, a.data j = b.data j) : a = b := by
  cases a
  cases b
  simp only [Tensor.mk.injEq]
  exact ⟨hs, funext hd⟩

lemma validExpandRev_self (l : List ℕ) : validExpandRev l l = true := by
  induction l with
  | nil => rfl
  | cons x xs ih => simp [validExpandRev, ih]

lemma validExpandRev_trans (a : List ℕ) :
    ∀ b c, validExpandRev a b = true → validExpandRev b c = true →
      validExpandRev a c = true := by
  induction a with
  | nil => intro b c _ _; rfl
  | cons x xs ih =>
    intro b c hab hbc
    cases b with
    | nil => simp [validExpandRev] at hab
    | cons y ys =>
      cases c with
      | nil => simp [validExpandRev] at hbc
      | cons z zs =>
        simp only [validExpandRev, Bool.and_eq_true, Bool.or_eq_true, beq_iff_eq]
          at hab hbc ⊢
        obtain ⟨h1, h2⟩ := hab
        obtain ⟨h3, h4⟩ := hbc
        refine ⟨?_, ih ys zs h2 h4⟩
        rcases h1 with h1 | h1
        · subst h1; exact h3
        · exact Or.inr h1

lemma validExpand_trans (a b c : List ℕ) (h1 : validExpand a b = true)
    (h2 : validExpand b c = true) : validExpand a c = true := by
  unfold validExpand at *
  exact validExpandRev_trans _ _ _ h1 h2

lemma bcDim_facts (x y e : ℕ) (hx : x = e ∨ x = 1) (hy : y = e ∨ y = 1) :
    (x = bcDim x y ∨ x = 1) ∧ (y = bcDim x y ∨ y = 1)
      ∧ (bcDim x y = e ∨ bcDim x y = 1) := by
  unfold bcDim
  split_ifs <;> refine ⟨?_, ?_, ?_⟩ <;> omega

lemma validExpandRev_bcast (sR : List ℕ) :
    ∀ aR bR, validExpandRev aR sR = true → validExpandRev bR sR = true →
      validExpandRev aR (bcastRev aR bR) = true
      ∧ validExpandRev bR (bcastRev aR bR) = true
      ∧ validExpandRev (bcastRev aR bR) sR = true := by
  induction sR with
  | nil =>
    intro aR bR ha hb
    cases aR with
    | cons x xs => simp [validExpandRev] at ha
    | nil =>
      cases bR with
      | cons y ys => simp [validExpandRev] at hb
      | nil => exact ⟨rfl, rfl, rfl⟩
  | cons e es ih =>
    intro aR bR ha hb
    cases aR with
    | nil =>
      cases bR with
      | nil => exact ⟨rfl, rfl, rfl⟩
      | cons y ys => exact ⟨rfl, validExpandRev_self _, hb⟩
    | cons x xs =>
      cases bR with
      | nil => exact ⟨validExpandRev_self _, rfl, ha⟩
      | cons y ys =>
        simp only [validExpandRev, Bool.and_eq_true, Bool.or_eq_true, beq_iff_eq]
          at ha hb
        obtain ⟨h1, h2⟩ := ha
        obtain ⟨h3, h4⟩ := hb
        obtain ⟨g1, g2, g3⟩ := ih xs ys h2 h4
        obtain ⟨f1, f2, f3⟩ := bcDim_facts x y e h1 h3
        refine ⟨?_, ?_, ?_⟩ <;>
          simp only [bcastRev, validExpandRev, Bool.and_eq_true, Bool.or_eq_true,
            beq_iff_eq]
        · exact ⟨f1, g1⟩
        · exact ⟨f2, g2⟩
        · exact ⟨f3, g3⟩

lemma validExpand_broadcastShapes (a b s : List ℕ)
    (ha : validExpand a s = true) (hb : validExpand b s = true) :
    validExpand a (broadcastShapes a b) = true
    ∧ validExpand b (broadcastShapes a b) = true
    ∧ validExpand (broadcastShapes a b) s = true := by
  unfold validExpand at *
  unfold broadcastShapes
  rw [List.reverse_reverse]
  exact validExpandRev_bcast s.reverse a.reverse b.reverse ha hb

lemma padIdxRev_comp (aR : List ℕ) :
    ∀ mR jR, validExpandRev aR mR = true →
      padIdxRev aR (padIdxRev mR jR) = padIdxRev aR jR := by
  induction aR with
  | nil => intro mR jR _; rfl
  | cons x xs ih =>
    intro mR jR h
    cases mR with
    | nil => simp [validExpandRev] at h
    | cons y ys =>
      simp only [validExpandRev, Bool.and_eq_true, Bool.or_eq_true, beq_iff_eq] at h
      obtain ⟨h1, h2⟩ := h
      cases jR with
      | nil =>
        simp only [padIdxRev]
        rw [ih ys [] h2, ite_self]
      | cons i is =>
        simp only [padIdxRev]
        rw [ih ys is h2]
        congr 1
        by_cases hx : x = 1
        · rw [if_pos hx, if_pos hx]
        · have hxy : x = y := h1.resolve_right hx
          rw [if_neg hx, if_neg hx, if_neg (hxy ▸ hx)]

lemma broadcastTo_comp (t : Tensor) (m s : List ℕ) (j : List ℕ)
    (hm : validExpand t.shape m = true) :
    ((t.broadcastTo m).broadcastTo s).data j = (t.broadcastTo s).data j := by
  unfold validExpand at hm
  show t.data (padIdxRev t.shape.reverse
      ((padIdxRev m.reverse j.reverse).reverse).reverse).reverse
    = t.data (padIdxRev t.shape.reverse j.reverse).reverse
  rw [List.reverse_reverse, padIdxRev_comp _ _ _ hm]

lemma bbOpShape_expand (d : BetaBinomial) (s : List ℕ) (v : Tensor)
    (hv : validExpand v.shape s = true) :
    bbOpShape (bbExpand d s) v = s := by
  unfold bbOpShape
  rw [bbExpand_totalCount, bbExpand_c1, bbExpand_c0]
  rw [broadcastTo_shape, broadcastTo_shape, broadcastTo_shape]
  rw [broadcastShapes_self, broadcastShapes_of_validExpand _ _ hv, broadcastShapes_self]

lemma gpOpShape_expand (g : GammaPoisson) (t : List ℕ) (w : Tensor)
    (hw : validExpand w.shape t = true) :
    gpOpShape (gpExpand g t) w = t := by
  unfold gpOpShape
  rw [gpExpand_conc, gpExpand_rate]
  rw [broadcastTo_shape, broadcastTo_shape]
  rw [broadcastShapes_of_validExpand _ _ hw, broadcastShapes_self]

lemma bbOpShape_eq (d : BetaBinomial) (v : Tensor)
    (hc1 : d.beta.concentration1.shape = d.batchShape)
    (hc0 : d.beta.concentration0.shape = d.batchShape)
    (htc : d.totalCount.shape = d.batchShape) :
    bbOpShape d v
      = broadcastShapes d.batchShape (broadcastShapes v.shape d.batchShape) := by
  unfold bbOpShape
  rw [hc1, hc0, htc, broadcastShapes_self]

lemma gpOpShape_eq (g : GammaPoisson) (w : Tensor)
    (hgc : g.gamma.concentration.shape = g.batchShape)
    (hgr : g.gamma.rate.shape = g.batchShape) :
    gpOpShape g w
      = broadcastShapes g.batchShape (broadcastShapes w.shape g.batchShape) := by
  unfold gpOpShape
  rw [hgc, hgr]

lemma bbLogProb_data (lg : ℚ → ℚ) (d : BetaBinomial) (v : Tensor) (j : List ℕ) :
    (bbLogProb lg d v).data j = bbLogProbVal lg
      ((d.totalCount.broadcastTo (bbOpShape d v)).data j)
      ((d.beta.concentration1.broadcastTo (bbOpShape d v)).data j)
      ((d.beta.concentration0.broadcastTo (bbOpShape d v)).data j)
      ((v.broadcastTo (bbOpShape d v)).data j) := rfl

lemma bbLogProb_broadcast_data (lg : ℚ → ℚ) (d : BetaBinomial) (v : Tensor)
    (s : List ℕ) (j : List ℕ) :
    ((bbLogProb lg d v).broadcastTo s).data j = bbLogProbVal lg
      (((d.totalCount.broadcastTo (bbOpShape d v)).broadcastTo s).data j)
      (((d.beta.concentration1.broadcastTo (bbOpShape d v)).broadcastTo s).data j)
      (((d.beta.concentration0.broadcastTo (bbOpShape d v)).broadcastTo s).data j)
      (((v.broadcastTo (bbOpShape d v)).broadcastTo s).data j) := rfl

lemma gpLogProb_data (lg log : ℚ → ℚ) (g : GammaPoisson) (w : Tensor) (j : List ℕ) :
    (gpLogProb lg log g w).data j = gpLogProbVal lg log
      ((g.gamma.concentration.broadcastTo (gpOpShape g w)).data j)
      ((w.broadcastTo (gpOpShape g w)).data j)
      ((g.gamma.rate.broadcastTo (gpOpShape g w)).data j) := rfl

lemma gpLogProb_broadcast_data (lg log : ℚ → ℚ) (g : GammaPoisson) (w : Tensor)
    (t : List ℕ) (j : List ℕ) :
    ((gpLogProb lg log g w).broadcastTo t).data j = gpLogProbVal lg log
      (((g.gamma.concentration.broadcastTo (gpOpShape g w)).broadcastTo t).data j)
      (((w.broadcastTo (gpOpShape g w)).broadcastTo t).data j)
      (((g.gamma.rate.broadcastTo (gpOpShape g w)).broadcastTo t).data j) := rfl

/-- Claim C4: for every valid expansion target shape and every
broadcast-compatible value, `instance.expand(shape).log_prob(value)` equals
`instance.log_prob(value)` broadcast to `shape` (an equality of whole
tensors; the expanded result carries the target shape), and
`posterior_latent_dist` computed on the expanded instance is identical to the
original's (it reads the shared `unexpanded_params`) — for `BetaBinomial` and
`GammaPoisson` alike. -/
theorem expand_invariance (lg log : ℚ → ℚ) (d : BetaBinomial) (g : GammaPoisson)
    (s t : List ℕ) (v w obs pobs : Tensor)
    (hc1 : d.beta.concentration1.shape = d.batchShape)
    (hc0 : d.beta.concentration0.shape = d.batchShape)
    (htc : d.totalCount.shape = d.batchShape)
    (hex : validExpand d.batchShape s = true)
    (hv : validExpand v.shape s = true)
    (hgc : g.gamma.concentration.shape = g.batchShape)
    (hgr : g.gamma.rate.shape = g.batchShape)
    (hgex : validExpand g.batchShape t = true)
    (hw : validExpand w.shape t = true) :
    ((bbLogProb lg (bbExpand d s) v).shape = s
      ∧ (bbLogProb lg d v).broadcastTo s = bbLogProb lg (bbExpand d s) v)
    ∧ bbPosterior (bbExpand d s) obs = bbPosterior d obs
    ∧ ((gpLogProb lg log (gpExpand g t) w).shape = t
      ∧ (gpLogProb lg log g w).broadcastTo t = gpLogProb lg log (gpExpand g t) w)
    ∧ gpPosterior (gpExpand g t) pobs = gpPosterior g pobs := by
  have hS1 : bbOpShape (bbExpand d s) v = s := bbOpShape_expand d s v hv
  have hMeq := bbOpShape_eq d v hc1 hc0 htc
  have hA := validExpand_broadcastShapes v.shape d.batchShape s hv hex
  have hB := validExpand_broadcastShapes d.batchShape
    (broadcastShapes v.shape d.batchShape) s hex hA.2.2
  have hbm : validExpand d.batchShape (bbOpShape d v) = true := by
    rw [hMeq]; exact hB.1
  have hvm : validExpand v.shape (bbOpShape d v) = true := by
    rw [hMeq]; exact validExpand_trans _ _ _ hA.1 hB.2.1
  have hT1 : gpOpShape (gpExpand g t) w = t := gpOpShape_expand g t w hw
  have hNeq := gpOpShape_eq g w hgc hgr
  have hC := validExpand_broadcastShapes w.shape g.batchShape t hw hgex
  have hD := validExpand_broadcastShapes g.batchShape
    (broadcastShapes w.shape g.batchShape) t hgex hC.2.2
  have hgm : validExpand g.batchShape (gpOpShape g w) = true := by
    rw [hNeq]; exact hD.1
  have hwm : validExpand w.shape (gpOpShape g w) = true := by
    rw [hNeq]; exact validExpand_trans _ _ _ hC.1 hD.2.1
  refine ⟨⟨hS1, ?_⟩, rfl, ⟨hT1, ?_⟩, rfl⟩
  · apply tensor_eq_of
    · exact hS1.symm
    · intro j
      rw [bbLogProb_broadcast_data]
      rw [broadcastTo_comp d.totalCount (bbOpShape d v) s j (by rw [htc]; exact hbm)]
      rw [broadcastTo_comp d.beta.concentration1 (bbOpShape d v) s j
        (by rw [hc1]; exact hbm)]
      rw [broadcastTo_comp d.beta.concentration0 (bbOpShape d v) s j
        (by rw [hc0]; exact hbm)]
      rw [broadcastTo_comp v (bbOpShape d v) s j hvm]
      rw [bbLogProb_data, hS1, bbExpand_totalCount, bbExpand_c1, bbExpand_c0]
      rw [broadcastTo_comp d.totalCount s s j (by rw [htc]; exact hex)]
      rw [broadcastTo_comp d.beta.concentration1 s s j (by rw [hc1]; exact hex)]
      rw [broadcastTo_comp d.beta.concentration0 s s j (by rw [hc0]; exact hex)]
  · apply tensor_eq_of
    · exact hT1.symm
    · intro j
      rw [gpLogProb_broadcast_data]
      rw [broadcastTo_comp g.gamma.concentration (gpOpShape g w) t j
        (by rw [hgc]; exact hgm)]
      rw [broadcastTo_comp w (gpOpShape g w) t j hwm]
      rw [broadcastTo_comp g.gamma.rate (gpOpShape g w) t j (by rw [hgr]; exact hgm)]
      rw [gpLogProb_data, hT1, gpExpand_conc, gpExpand_rate]
      rw [broadcastTo_comp g.gamma.concentration t t j (by rw [hgc]; exact hgex)]
      rw [broadcastTo_comp g.gamma.rate t t j (by rw [hgr]; exact hgex)]

/-- A concrete `BetaBinomial` of batch shape `(2,)` to expand to `(3, 2)`. -/
def bbExpandWitInstance : BetaBinomial :=
  bbMk ⟨[2], fun _ => 2⟩ ⟨[2], fun _ => 3⟩ ⟨[2], fun _ => 4⟩ true

/-- A concrete `GammaPoisson` of batch shape `(2,)` to expand to `(3, 2)`. -/
def gpExpandWitInstance : GammaPoisson :=
  gpMk ⟨[2], fun _ => 5⟩ ⟨[2], fun _ => 2⟩ true

/-- An all-ones tensor of shape `(2,)` — strictly smaller than the expansion
target `(3, 2)`, so that its broadcast against the target is non-trivial. -/
def tOnes2 : Tensor := ⟨[2], fun _ => 1⟩

/-- An all-ones tensor of shape `(4, 2)`. -/
def tOnes42 : Tensor := ⟨[4, 2], fun _ => 1⟩

/-- Witness for claim C4: expanding concrete batch-`(2,)` instances to
`(3, 2)` and evaluating `log_prob` at a value of shape `(2,)` (broadcast
into the target) gives the original `log_prob` broadcast to `(3, 2)`, and
the posterior update is unchanged. -/
theorem expand_invariance_witness :
    ((bbLogProb id (bbExpand bbExpandWitInstance [3, 2]) tOnes2).shape = [3, 2]
      ∧ (bbLogProb id bbExpandWitInstance tOnes2).broadcastTo [3, 2]
          = bbLogProb id (bbExpand bbExpandWitInstance [3, 2]) tOnes2)
    ∧ bbPosterior (bbExpand bbExpandWitInstance [3, 2]) tOnes42
        = bbPosterior bbExpandWitInstance tOnes42
    ∧ ((gpLogProb id id (gpExpand gpExpandWitInstance [3, 2]) tOnes2).shape = [3, 2]
      ∧ (gpLogProb id id gpExpandWitInstance tOnes2).broadcastTo [3, 2]
          = gpLogProb id id (gpExpand gpExpandWitInstance [3, 2]) tOnes2)
    ∧ gpPosterior (gpExpand gpExpandWitInstance [3, 2]) tOnes42
        = gpPosterior gpExpandWitInstance tOnes42 :=
  expand_invariance id id bbExpandWitInstance gpExpandWitInstance [3, 2] [3, 2]
    tOnes2 tOnes2 tOnes42 tOnes42 rfl rfl rfl (by decide) (by decide)
    rfl rfl (by decide) (by decide)

end PyroConjugate
